import Mathlib

/-!
Verification development for the ppmi-scraper repository.

The definitions below are shallow embeddings of the Python source:
filenames are Lean `String`s, directory listings are `List String` in the
enumeration order returned by `os.listdir`, side effects (remote clicks,
teardown, unzipping) are recorded as explicit event lists or state passing,
and exceptions are explicit outcome constructors.
-/

/-- Models Python `s.endswith(suf)` for a single suffix. -/
def endsWithStr (s suf : String) : Bool :=
  suf.data.isSuffixOf s.data

/-- Outcome of one evaluation of a local `download_complete` predicate:
`complete` models `return True`, `notComplete` models `return False`,
`assertError` models a failing `assert` statement inside the predicate. -/
inductive PollOutcome where
  | complete
  | notComplete
  | assertError
  deriving DecidableEq, Repr

/-- The Chrome in-progress download marker suffix used by all three predicates. -/
def crdownloadSuffix : String := ".crdownload"

namespace DownloadMetadata

/-- Loop of the local `download_complete` in `PPMIDownloader.download_metadata`
(ppmi_downloader.py lines 542-554): for each file, return False on a
`.crdownload` suffix; after the loop, assert the last file ends with `.csv`
or `.zip` and return True.  The first argument is the current file, the
second the remaining files, so the last file processed is the listing tail. -/
def loop : String → List String → PollOutcome
  | f, [] =>
    if endsWithStr f crdownloadSuffix then .notComplete
    else if endsWithStr f ".csv" || endsWithStr f ".zip" then .complete
    else .assertError
  | f, g :: gs =>
    if endsWithStr f crdownloadSuffix then .notComplete
    else loop g gs

/-- The local `download_complete` in `PPMIDownloader.download_metadata`:
empty listing yields False, otherwise run the scanning loop. -/
def download_complete (files : List String) : PollOutcome :=
  match files with
  | [] => .notComplete
  | f :: fs => loop f fs

end DownloadMetadata

namespace DownloadImagingData

/-- Loop of the local `download_complete` in
`PPMIDownloader.download_imaging_data` (ppmi_downloader.py lines 385-397):
same shape as the metadata loop but the trailing assert accepts
`.csv`, `.zip`, `.dcm` and `.xml`. -/
def loop : String → List String → PollOutcome
  | f, [] =>
    if endsWithStr f crdownloadSuffix then .notComplete
    else if endsWithStr f ".csv" || endsWithStr f ".zip" ||
        endsWithStr f ".dcm" || endsWithStr f ".xml" then .complete
    else .assertError
  | f, g :: gs =>
    if endsWithStr f crdownloadSuffix then .notComplete
    else loop g gs

/-- The local `download_complete` in `PPMIDownloader.download_imaging_data`. -/
def download_complete (files : List String) : PollOutcome :=
  match files with
  | [] => .notComplete
  | f :: fs => loop f fs

/-- The count of files expected by `download_imaging_data` once the wait
returns: the code asserts `len(downloaded_files) == 3` (line 408). -/
def expectedCount : Nat := 3

end DownloadImagingData

namespace Download3DT1

/-- Loop of the local `download_complete` in
`PPMIDownloader.download_3D_T1_info` (ppmi_downloader.py lines 461-475):
for each file, return False on a `.crdownload` suffix, but return True as
soon as a file ending in `.csv` is seen; if the loop falls through, the
trailing assert on the last file fails (the last file ends neither in
`.crdownload` nor in `.csv`, otherwise the loop would have returned). -/
def loop : String → List String → PollOutcome
  | f, [] =>
    if endsWithStr f crdownloadSuffix then .notComplete
    else if endsWithStr f ".csv" then .complete
    else .assertError
  | f, g :: gs =>
    if endsWithStr f crdownloadSuffix then .notComplete
    else if endsWithStr f ".csv" then .complete
    else loop g gs

/-- The local `download_complete` in `PPMIDownloader.download_3D_T1_info`. -/
def download_complete (files : List String) : PollOutcome :=
  match files with
  | [] => .notComplete
  | f :: fs => loop f fs

end Download3DT1

namespace UnzipMetadata

/-- The count of files expected by `HTMLHelper.unzip_metadata`, the routine
`download_metadata` runs after its wait: the code asserts
`len(downloaded_files) == 1` (ppmi_navigator.py line 445). -/
def expectedCount : Nat := 1

end UnzipMetadata

/-- Outcome of one attempt of the underlying browser operation wrapped by
`HTMLHelper.click_button` / `HTMLHelper.enter_data`: `ok` models the wait and
click/send_keys succeeding, `transientFailure` models a raised
`WebDriverException` (the only exception class the `except` clause catches),
`otherFailure` models any exception outside that class. -/
inductive AttemptOutcome where
  | ok
  | transientFailure
  | otherFailure
  deriving DecidableEq, Repr

/-- Result of running one of the retrying helpers: `success` models the body
completing, `fatalExit` models the `trials < 0` branch (screenshot, driver
quit, `logger.error`, which terminates the process), `raised` models an
exception propagating out of the helper uncaught. -/
inductive ActionResult where
  | success
  | fatalExit
  | raised
  deriving DecidableEq, Repr

/-- Models `HTMLHelper.click_button` (ppmi_navigator.py lines 188-230).
`op attempt` is the outcome of the attempt with the given index; on a
`WebDriverException` the function calls itself with `trials - 1`; when
called with `trials < 0` it takes the screenshot / quit / fatal-error path
before attempting anything. -/
def click_button (op : Nat → AttemptOutcome) (attempt : Nat) (trials : Int) :
    ActionResult :=
  if _h : trials < 0 then .fatalExit
  else
    match op attempt with
    | .ok => .success
    | .transientFailure => click_button op (attempt + 1) (trials - 1)
    | .otherFailure => .raised
termination_by (trials + 1).toNat
decreasing_by
  omega

/-- Models `HTMLHelper.enter_data` (ppmi_navigator.py lines 143-186); the
retry structure is identical to `click_button`. -/
def enter_data (op : Nat → AttemptOutcome) (attempt : Nat) (trials : Int) :
    ActionResult :=
  if _h : trials < 0 then .fatalExit
  else
    match op attempt with
    | .ok => .success
    | .transientFailure => enter_data op (attempt + 1) (trials - 1)
    | .otherFailure => .raised
termination_by (trials + 1).toNat
decreasing_by
  omega

/-- An operation that fails transiently on its first `k` attempts and then
succeeds, as in the spec scenario for the retryable action. -/
def failsThenSucceeds (k : Nat) : Nat → AttemptOutcome :=
  fun attempt => if attempt < k then .transientFailure else .ok

/-- Result of `selenium.webdriver.support.wait.WebDriverWait(...).until(pred)`
over a stream of directory listings: the predicate can become true at some
polling tick, raise an assertion error at some tick, or never hold within
the timeout (modeled as a fuel bound on the number of polls), which makes
`until` raise `TimeoutException`. -/
inductive WaitResult where
  | completedAt (tick : Nat)
  | assertAt (tick : Nat)
  | timedOut
  deriving DecidableEq, Repr

/-- Models `WebDriverWait(self.driver, timeout).until(download_complete)`:
poll the predicate on the listing at each tick until it returns True
(`complete`), propagate an assertion failure, and raise `TimeoutException`
(`timedOut`) when the fuel for the timeout budget runs out. -/
def webDriverWaitUntil (pred : List String → PollOutcome)
    (listings : Nat → List String) : Nat → Nat → WaitResult
  | _tick, 0 => .timedOut
  | tick, fuel + 1 =>
    match pred (listings tick) with
    | .complete => .completedAt tick
    | .notComplete => webDriverWaitUntil pred listings (tick + 1) fuel
    | .assertError => .assertAt tick

/-- Observable events of a downloader run: remote interactions (navigation,
login, clicks, data entry), session teardown steps performed by
`PPMIDownloader.quit` and the file-routing / raising steps. -/
inductive Ev where
  | navigateMain
  | loginPortal
  | navigateHome
  | clickChain
  | checkboxClick
  | downloadBtnClick
  | enterSubjectIds
  | advancedSearchClicks
  | tempdirCleanup
  | deleteAllCookies
  | driverQuit
  | unzipMetadataStep
  | unzipImagingStep
  | raiseTimeout
  deriving DecidableEq, Repr

/-- Errors surfaced by `download_metadata`: the `Unsupported file name`
exception raised by the support check, the re-raised `TimeoutException`,
and an assertion error escaping the completion predicate. -/
inductive MetaErr where
  | unsupportedFileName (name : String)
  | timeoutException
  | assertionError
  deriving DecidableEq, Repr

/-- Models `PPMIDownloader.quit` (ppmi_downloader.py lines 168-172):
`self.tempdir.cleanup()`, `self.driver.delete_all_cookies()`,
`self.driver.quit()`, in that order. -/
def quitEvents : List Ev :=
  [.tempdirCleanup, .deleteAllCookies, .driverQuit]

/-- The remote interactions `download_metadata` performs after its support
check and before its completion wait: navigate to the main page, login,
navigate home, click the Download / Study Data / ALL chain, click the two
checkboxes found for each requested file, click the download button. -/
def metaRemoteEvents (requested : List String) : List Ev :=
  [.navigateMain, .loginPortal, .navigateHome, .clickChain]
    ++ requested.map (fun _ => Ev.checkboxClick) ++ [.downloadBtnClick]

/-- Models `PPMIDownloader.download_metadata` (ppmi_downloader.py lines
488-563) from its support check onward.  `fileIdsKeys` are the keys of
`self.file_ids`, `realToGuessedKeys` the keys of `self.real_to_guessed`;
their union is the supported set.  The first requested name outside it
raises `Exception("Unsupported file name: ...")` before any remote
interaction.  Otherwise the remote interactions run, the completion wait
polls `download_complete` over `listings`, and on `TimeoutException` the
code calls `self.quit()` and re-raises. -/
def download_metadata (fileIdsKeys realToGuessedKeys requested : List String)
    (listings : Nat → List String) (fuel : Nat) : List Ev × Option MetaErr :=
  let supported := fileIdsKeys ++ realToGuessedKeys
  match requested.find? (fun f => !(supported.contains f)) with
  | some f => ([], some (.unsupportedFileName f))
  | none =>
    match webDriverWaitUntil DownloadMetadata.download_complete listings 0 fuel with
    | .completedAt _ => (metaRemoteEvents requested ++ [.unzipMetadataStep], none)
    | .timedOut =>
      (metaRemoteEvents requested ++ quitEvents ++ [.raiseTimeout],
        some .timeoutException)
    | .assertAt _ => (metaRemoteEvents requested, some .assertionError)

/-- Models `HTMLHelper.unzip_file` (ppmi_navigator.py lines 399-424) on a
directory-listing filesystem: `tempdir` and `dest` are the listings of the
source temporary directory and of the destination directory, `zipContents`
gives the member list of an archive.  A `.zip` file has all members
extracted into the destination and the first two member names reported to
the logger; any other file is moved (removed from the source, appended to
the destination under the same name) and its name reported. -/
def unzip_file (zipContents : String → List String) (filename : String)
    (tempdir dest : List String) : (List String × List String) × List String :=
  if endsWithStr filename ".zip" then
    ((tempdir, dest ++ zipContents filename), (zipContents filename).take 2)
  else
    ((tempdir.erase filename, dest ++ [filename]), [filename])

/-- The accepted extensions of `HTMLHelper.unzip_imaging_data`
(ppmi_navigator.py line 470). -/
def imagingAcceptedExt (f : String) : Bool :=
  endsWithStr f ".zip" || endsWithStr f ".csv" ||
    endsWithStr f ".dcm" || endsWithStr f ".xml"

/-- Models `HTMLHelper.unzip_imaging_data` (ppmi_navigator.py lines
455-474): assert every file name carries an accepted extension (`none`
models the assertion error) and run `unzip_file` on each in turn. -/
def unzip_imaging_data (zipContents : String → List String)
    (files : List String) (tempdir dest : List String) :
    Option (List String × List String) :=
  match files with
  | [] => some (tempdir, dest)
  | f :: fs =>
    if imagingAcceptedExt f then
      let st := unzip_file zipContents f tempdir dest
      unzip_imaging_data zipContents fs st.1.1 st.1.2
    else none

/-- Errors of `download_imaging_data`: the failing `assert type in
("archived", "nifti")`, the fatal `logger.error` after a download timeout
(the timeout branch quits the session and terminates the process), and an
assertion error (from the predicate, the `len == 3` check or the
extension check in `unzip_imaging_data`). -/
inductive ImagingErr where
  | typeAssertionError
  | fatalTimeout
  | assertionError
  deriving DecidableEq, Repr

/-- The remote interactions `download_imaging_data` performs when the
subject list is non-empty, before its completion wait: navigate, login,
navigate to the search page, the click chain, entering the subject ids and
the advanced-search / export / download clicks. -/
def imagingRemoteEvents : List Ev :=
  [.navigateMain, .loginPortal, .navigateHome, .clickChain,
    .enterSubjectIds, .advancedSearchClicks, .downloadBtnClick]

/-- Models `PPMIDownloader.download_imaging_data` (ppmi_downloader.py lines
315-413).  The `type` assertion runs first; then the empty subject list
returns immediately, before any remote interaction; otherwise the remote
interactions run, the wait polls `download_complete`, a timeout quits the
session (cleaning the temporary directory) and exits fatally, and on
completion the three downloaded files are routed by `unzip_imaging_data`.
The returned state is the pair of temporary-directory and
destination-directory listings. -/
def download_imaging_data (zipContents : String → List String) (ty : String)
    (subject_ids : List Int) (tempdir dest : List String)
    (listings : Nat → List String) (fuel : Nat) :
    List Ev × (List String × List String) × Option ImagingErr :=
  if !(ty == "archived" || ty == "nifti") then
    ([], (tempdir, dest), some .typeAssertionError)
  else if subject_ids.length == 0 then
    ([], (tempdir, dest), none)
  else
    match webDriverWaitUntil DownloadImagingData.download_complete listings 0 fuel with
    | .timedOut =>
      (imagingRemoteEvents ++ quitEvents, ([], dest), some .fatalTimeout)
    | .assertAt t =>
      (imagingRemoteEvents, (listings t, dest), some .assertionError)
    | .completedAt t =>
      let files := listings t
      if files.length == DownloadImagingData.expectedCount then
        match unzip_imaging_data zipContents files files dest with
        | some st => (imagingRemoteEvents ++ [.unzipImagingStep], st, none)
        | none => (imagingRemoteEvents, (files, dest), some .assertionError)
      else (imagingRemoteEvents, (files, dest), some .assertionError)

/-- Models the Python dict update `d[key] = d.get(key, []) + [v]` used by
`find_matching` in build-mapping.py: an existing key keeps its position and
appends `v` to its list, a fresh key is appended at the end (insertion
order). -/
def dictAppend {R : Type} [DecidableEq R] (key : R) (v : ℚ) :
    List (R × List ℚ) → List (R × List ℚ)
  | [] => [(key, [v])]
  | (k, vs) :: rest =>
    if k = key then (k, vs ++ [v]) :: rest
    else (k, vs) :: dictAppend key v rest

/-- The `scores_local` dict built by the two nested loops of
`find_matching` (build-mapping.py lines 38-44) for one guessed name: for
each algorithm, for each real name, append the similarity of the pair to
the list held under the real name.  Similarities are modeled as rationals
supplied by the abstract measure family `sim`. -/
def scores_local {A R : Type} [DecidableEq R] (algorithms : List A)
    (real : List R) (sim : A → R → ℚ) : List (R × List ℚ) :=
  algorithms.foldl
    (fun d a => real.foldl (fun d r => dictAppend r (sim a r) d) d) []

/-- Stable descending insertion: the inserted element came earlier in the
input than everything already in the sorted list, so it goes in front of
the first element whose key is not larger. -/
def insertDesc {P : Type} (key : P → ℚ) (x : P) : List P → List P
  | [] => [x]
  | y :: ys => if key y ≤ key x then x :: y :: ys else y :: insertDesc key x ys

/-- Stable descending sort by key, modeling Python
`sorted(..., key=lambda i: sum(i[1]), reverse=True)` (a stable sort). -/
def sortDesc {P : Type} (key : P → ℚ) : List P → List P
  | [] => []
  | x :: xs => insertDesc key x (sortDesc key xs)

/-- The per-guess body of `find_matching` (build-mapping.py lines 38-52):
sort the `scores_local` items by summed score, descending and stable, and
take the real name of the top entry; `none` models the `IndexError` of
`scores_sorted[0]` on an empty dict. -/
def find_matching_one {A R : Type} [DecidableEq R] (algorithms : List A)
    (real : List R) (sim : A → R → ℚ) : Option R :=
  ((sortDesc (fun p => p.2.sum) (scores_local algorithms real sim)).head?).map
    Prod.fst

/-- Models `find_matching` (build-mapping.py lines 32-56): each guessed name
is mapped to the result of the per-guess selection. -/
def find_matching {A R G : Type} [DecidableEq R] (algorithms : List A)
    (real : List R) (guess : List G) (sim : A → R → G → ℚ) :
    List (G × Option R) :=
  guess.map (fun g => (g, find_matching_one algorithms real (fun a r => sim a r g)))

/-- The aggregate score of a real-name candidate: its similarity to the
guessed name summed across all measures. -/
def aggregate_score {A R : Type} (algorithms : List A) (sim : A → R → ℚ)
    (r : R) : ℚ :=
  (algorithms.map (fun a => sim a r)).sum

/-- Models Python dict assignment `d[k] = v` on a dict represented as its
item list: an existing key is updated in place, a fresh key is appended. -/
def dictSet (d : List (String × String)) (k v : String) :
    List (String × String) :=
  match d with
  | [] => [(k, v)]
  | (k', v') :: rest =>
    if k' = k then (k, v) :: rest else (k', v') :: dictSet rest k v

/-- Models Python dict lookup `d[k]` (as an `Option` to make the `KeyError`
case explicit). -/
def dictGet (d : List (String × String)) (k : String) : Option String :=
  match d with
  | [] => none
  | (k', v) :: rest => if k' = k then some v else dictGet rest k

/-- Models the dict comprehension `{v: k for k, v in m.items()}` of
`PPMIDownloader._get_real_name` (ppmi_downloader.py line 244) building
`self.real_to_guessed` from `self.guessed_to_real`. -/
def dictInvert (m : List (String × String)) : List (String × String) :=
  m.foldl (fun acc p => dictSet acc p.2 p.1) []

theorem metaLoop_notComplete_of_crdownload (f : String) (fs : List String)
    (h : ∃ g ∈ f :: fs, endsWithStr g crdownloadSuffix = true) :
    DownloadMetadata.loop f fs = .notComplete := by
  induction fs generalizing f with
  | nil =>
    obtain ⟨g, hg, hge⟩ := h
    rw [List.mem_singleton.mp hg] at hge
    simp [DownloadMetadata.loop, hge]
  | cons a fs ih =>
    obtain ⟨g, hg, hge⟩ := h
    cases hcr : endsWithStr f crdownloadSuffix with
    | true => simp [DownloadMetadata.loop, hcr]
    | false =>
      rcases List.mem_cons.mp hg with rfl | hg2
      · rw [hge] at hcr
        cases hcr
      · simp only [DownloadMetadata.loop, hcr, Bool.false_eq_true, if_false]
        exact ih a ⟨g, hg2, hge⟩

theorem imagingLoop_notComplete_of_crdownload (f : String) (fs : List String)
    (h : ∃ g ∈ f :: fs, endsWithStr g crdownloadSuffix = true) :
    DownloadImagingData.loop f fs = .notComplete := by
  induction fs generalizing f with
  | nil =>
    obtain ⟨g, hg, hge⟩ := h
    rw [List.mem_singleton.mp hg] at hge
    simp [DownloadImagingData.loop, hge]
  | cons a fs ih =>
    obtain ⟨g, hg, hge⟩ := h
    cases hcr : endsWithStr f crdownloadSuffix with
    | true => simp [DownloadImagingData.loop, hcr]
    | false =>
      rcases List.mem_cons.mp hg with rfl | hg2
      · rw [hge] at hcr
        cases hcr
      · simp only [DownloadImagingData.loop, hcr, Bool.false_eq_true, if_false]
        exact ih a ⟨g, hg2, hge⟩

theorem t1_notComplete_of_no_earlier_csv (pre : List String) (c : String)
    (post : List String)
    (hc : endsWithStr c crdownloadSuffix = true)
    (hpre : ∀ f ∈ pre, endsWithStr f ".csv" = false) :
    Download3DT1.download_complete (pre ++ c :: post) = .notComplete := by
  induction pre with
  | nil =>
    cases post with
    | nil => simp [Download3DT1.download_complete, Download3DT1.loop, hc]
    | cons b bs => simp [Download3DT1.download_complete, Download3DT1.loop, hc]
  | cons a pre ih =>
    have ha : endsWithStr a ".csv" = false := hpre a (by simp)
    have ihr := ih (fun f hf => hpre f (by simp [hf]))
    cases hpp : pre ++ c :: post with
    | nil => simp at hpp
    | cons b bs =>
      rw [hpp] at ihr
      have hloop : Download3DT1.loop b bs = .notComplete := ihr
      cases hacr : endsWithStr a crdownloadSuffix with
      | true =>
        simp [Download3DT1.download_complete, hpp, Download3DT1.loop, hacr]
      | false =>
        simp [Download3DT1.download_complete, hpp, Download3DT1.loop, hacr, ha,
          hloop]

theorem metaLoop_complete_of_ready (f : String) (fs : List String)
    (hno : ∀ g ∈ f :: fs, endsWithStr g crdownloadSuffix = false)
    (hext : ∀ g ∈ f :: fs, (endsWithStr g ".csv" || endsWithStr g ".zip") = true) :
    DownloadMetadata.loop f fs = .complete := by
  induction fs generalizing f with
  | nil =>
    have h1 := hno f (by simp)
    have h2 := hext f (by simp)
    simp [DownloadMetadata.loop, h1, h2]
  | cons a fs ih =>
    have h1 := hno f (by simp)
    simp only [DownloadMetadata.loop, h1, Bool.false_eq_true, if_false]
    exact ih a (fun g hg => hno g (by simp [List.mem_cons.mp hg]))
      (fun g hg => hext g (by simp [List.mem_cons.mp hg]))

theorem imagingLoop_complete_of_ready (f : String) (fs : List String)
    (hno : ∀ g ∈ f :: fs, endsWithStr g crdownloadSuffix = false)
    (hext : ∀ g ∈ f :: fs, (endsWithStr g ".csv" || endsWithStr g ".zip" ||
        endsWithStr g ".dcm" || endsWithStr g ".xml") = true) :
    DownloadImagingData.loop f fs = .complete := by
  induction fs generalizing f with
  | nil =>
    have h1 := hno f (by simp)
    have h2 := hext f (by simp)
    simp only [DownloadImagingData.loop, h1, Bool.false_eq_true, if_false]
    rw [if_pos]
    rcases Bool.or_eq_true_iff.mp h2 with h | h
    · rcases Bool.or_eq_true_iff.mp h with h | h
      · rcases Bool.or_eq_true_iff.mp h with h | h <;> simp [h]
      · simp [h]
    · simp [h]
  | cons a fs ih =>
    have h1 := hno f (by simp)
    simp only [DownloadImagingData.loop, h1, Bool.false_eq_true, if_false]
    exact ih a (fun g hg => hno g (by simp [List.mem_cons.mp hg]))
      (fun g hg => hext g (by simp [List.mem_cons.mp hg]))

/-- C1 counterexample: the 3D-T1 completion predicate evaluates the listing
`["a.csv", "b.crdownload"]`, which contains an in-progress file, to
`complete`, because the per-file `.csv` early return fires on the first
file before the `.crdownload` marker on the second file is seen. -/
theorem t1_complete_despite_crdownload :
    Download3DT1.download_complete ["a.csv", "b.crdownload"] = .complete ∧
      endsWithStr "b.crdownload" crdownloadSuffix = true := by
  decide

/-- C1 (amended): a listing containing at least one `.crdownload` file makes
the `download_metadata` and `download_imaging_data` completion predicates
return not-complete regardless of the other files and of enumeration order;
the `download_3D_T1_info` predicate returns not-complete provided no file
ending in `.csv` occurs earlier in the listing than the in-progress file. -/
theorem crdownload_blocks_completion :
    (∀ files : List String,
        (∃ g ∈ files, endsWithStr g crdownloadSuffix = true) →
        DownloadMetadata.download_complete files = .notComplete)
    ∧ (∀ files : List String,
        (∃ g ∈ files, endsWithStr g crdownloadSuffix = true) →
        DownloadImagingData.download_complete files = .notComplete)
    ∧ (∀ (pre : List String) (c : String) (post : List String),
        endsWithStr c crdownloadSuffix = true →
        (∀ f ∈ pre, endsWithStr f ".csv" = false) →
        Download3DT1.download_complete (pre ++ c :: post) = .notComplete) := by
  refine ⟨fun files h => ?_, fun files h => ?_, t1_notComplete_of_no_earlier_csv⟩
  · cases files with
    | nil => rfl
    | cons f fs => exact metaLoop_notComplete_of_crdownload f fs h
  · cases files with
    | nil => rfl
    | cons f fs => exact imagingLoop_notComplete_of_crdownload f fs h

/-- Witness for the amended C1 theorem at concrete listings. -/
theorem crdownload_blocks_completion_witness :
    ((∃ g ∈ ["a.csv", "x.crdownload"], endsWithStr g crdownloadSuffix = true) ∧
      DownloadMetadata.download_complete ["a.csv", "x.crdownload"] = .notComplete)
    ∧ ((∃ g ∈ ["a.dcm", "x.crdownload"], endsWithStr g crdownloadSuffix = true) ∧
      DownloadImagingData.download_complete ["a.dcm", "x.crdownload"] = .notComplete)
    ∧ (endsWithStr "x.crdownload" crdownloadSuffix = true ∧
      (∀ f ∈ ["a.txt"], endsWithStr f ".csv" = false) ∧
      Download3DT1.download_complete (["a.txt"] ++ "x.crdownload" :: ["b.csv"]) =
        .notComplete) :=
  ⟨⟨by decide, crdownload_blocks_completion.1 _ (by decide)⟩,
    ⟨by decide, crdownload_blocks_completion.2.1 _ (by decide)⟩,
    by decide,
    by decide,
    crdownload_blocks_completion.2.2 ["a.txt"] "x.crdownload" ["b.csv"]
      (by decide) (by decide)⟩

/-- C2 counterexample: the `download_imaging_data` completion predicate
returns `complete` on a single-file listing although that download expects
three files (the code asserts `len(downloaded_files) == 3` right after the
wait), so the predicate can return True while the count of finished files
is below the expected count. -/
theorem imaging_complete_below_expected_count :
    DownloadImagingData.download_complete ["a.csv"] = .complete ∧
      List.length ["a.csv"] < DownloadImagingData.expectedCount := by
  decide

/-- C2 (amended): a non-empty listing with no in-progress markers in which
every name carries an accepted extension makes the `download_metadata` and
`download_imaging_data` completion predicates return complete on the very
next check; the metadata predicate never returns complete while the count
of finished files is below its expected count (one file), but the imaging
predicate only guarantees non-emptiness and can return complete with fewer
than its expected three files. -/
theorem ready_listing_completes :
    (∀ (f : String) (fs : List String),
        (∀ g ∈ f :: fs, endsWithStr g crdownloadSuffix = false) →
        (∀ g ∈ f :: fs, (endsWithStr g ".csv" || endsWithStr g ".zip") = true) →
        DownloadMetadata.download_complete (f :: fs) = .complete)
    ∧ (∀ (f : String) (fs : List String),
        (∀ g ∈ f :: fs, endsWithStr g crdownloadSuffix = false) →
        (∀ g ∈ f :: fs, (endsWithStr g ".csv" || endsWithStr g ".zip" ||
            endsWithStr g ".dcm" || endsWithStr g ".xml") = true) →
        DownloadImagingData.download_complete (f :: fs) = .complete)
    ∧ (∀ files : List String, files.length < UnzipMetadata.expectedCount →
        DownloadMetadata.download_complete files = .notComplete)
    ∧ DownloadImagingData.download_complete [] = .notComplete := by
  refine ⟨fun f fs h1 h2 => metaLoop_complete_of_ready f fs h1 h2,
    fun f fs h1 h2 => imagingLoop_complete_of_ready f fs h1 h2,
    fun files hlen => ?_, rfl⟩
  cases files with
  | nil => rfl
  | cons f fs => simp [UnzipMetadata.expectedCount] at hlen

/-- Witness for the amended C2 theorem at concrete listings. -/
theorem ready_listing_completes_witness :
    ((∀ g ∈ ["a.csv", "b.zip"], endsWithStr g crdownloadSuffix = false) ∧
      (∀ g ∈ ["a.csv", "b.zip"],
        (endsWithStr g ".csv" || endsWithStr g ".zip") = true) ∧
      DownloadMetadata.download_complete ["a.csv", "b.zip"] = .complete)
    ∧ ((∀ g ∈ ["a.zip", "b.csv", "c.xml"], endsWithStr g crdownloadSuffix = false) ∧
      (∀ g ∈ ["a.zip", "b.csv", "c.xml"],
        (endsWithStr g ".csv" || endsWithStr g ".zip" ||
          endsWithStr g ".dcm" || endsWithStr g ".xml") = true) ∧
      DownloadImagingData.download_complete ["a.zip", "b.csv", "c.xml"] = .complete)
    ∧ (List.length ([] : List String) < UnzipMetadata.expectedCount ∧
      DownloadMetadata.download_complete [] = .notComplete) :=
  ⟨⟨by decide, by decide,
      ready_listing_completes.1 "a.csv" ["b.zip"] (by decide) (by decide)⟩,
    ⟨by decide, by decide,
      ready_listing_completes.2.1 "a.zip" ["b.csv", "c.xml"] (by decide) (by decide)⟩,
    by decide,
    ready_listing_completes.2.2.1 [] (by decide)⟩

/-- C3: evaluation of the retry helpers at the claim boundary case.  With an
operation failing transiently exactly once (k = 1) and a trial budget of
one (n = 1), the claim (and the docstring, which says the helpers try
`trials` times) requires the retry-budget-exceeded failure path, but the
code checks `trials < 0` before each attempt and therefore makes
`trials + 1` attempts: both helpers succeed. -/
theorem retry_succeeds_at_budget_equal_failures :
    click_button (failsThenSucceeds 1) 0 1 = .success ∧
      enter_data (failsThenSucceeds 1) 0 1 = .success := by
  constructor
  · rw [click_button.eq_def]
    norm_num [failsThenSucceeds]
    rw [click_button.eq_def]
    norm_num [failsThenSucceeds]
  · rw [enter_data.eq_def]
    norm_num [failsThenSucceeds]
    rw [enter_data.eq_def]
    norm_num [failsThenSucceeds]

/-- C4: an attempt outcome that is not a `WebDriverException` (here
`otherFailure`) is not retried by `click_button` / `enter_data`: with any
non-negative remaining budget the helpers immediately propagate it as a
raised exception, an outcome distinct from the budget-exhausted fatal
path. -/
theorem permanent_failure_not_retried (op : Nat → AttemptOutcome)
    (attempt : Nat) (trials : Int) (h0 : 0 ≤ trials)
    (hp : op attempt = .otherFailure) :
    click_button op attempt trials = .raised ∧
      enter_data op attempt trials = .raised ∧
      ActionResult.raised ≠ ActionResult.fatalExit := by
  have hn : ¬trials < 0 := by omega
  refine ⟨?_, ?_, by intro h; cases h⟩
  · rw [click_button.eq_def]
    simp [hn, hp]
  · rw [enter_data.eq_def]
    simp [hn, hp]

/-- Witness for the C4 theorem at a concrete always-permanent operation. -/
theorem permanent_failure_not_retried_witness :
    (0 : Int) ≤ 3 ∧
      (fun _ => AttemptOutcome.otherFailure) 0 = AttemptOutcome.otherFailure ∧
      click_button (fun _ => AttemptOutcome.otherFailure) 0 3 = .raised ∧
      enter_data (fun _ => AttemptOutcome.otherFailure) 0 3 = .raised :=
  ⟨by decide, rfl,
    (permanent_failure_not_retried (fun _ => AttemptOutcome.otherFailure) 0 3
      (by decide) rfl).1,
    (permanent_failure_not_retried (fun _ => AttemptOutcome.otherFailure) 0 3
      (by decide) rfl).2.1⟩

theorem waitUntil_timedOut_of_never (pred : List String → PollOutcome)
    (listings : Nat → List String)
    (h : ∀ i, pred (listings i) = .notComplete) :
    ∀ fuel tick, webDriverWaitUntil pred listings tick fuel = .timedOut := by
  intro fuel
  induction fuel with
  | zero => intro tick; rfl
  | succ fuel ih =>
    intro tick
    simp only [webDriverWaitUntil, h tick]
    exact ih (tick + 1)

/-- C5: when every polled listing leaves the metadata completion predicate
unsatisfied, `download_metadata` surfaces the `TimeoutException`, and the
event trace shows the full session teardown of `quit` (temporary-directory
cleanup, cookie deletion, driver quit) happening after the remote
interactions and immediately before the re-raise; the timeout is not
retried and the file-routing step never runs. -/
theorem metadata_timeout_teardown_before_raise
    (fileIdsKeys realToGuessedKeys requested : List String)
    (listings : Nat → List String) (fuel : Nat)
    (hsup : ∀ f ∈ requested, f ∈ fileIdsKeys ++ realToGuessedKeys)
    (hnever : ∀ i,
      DownloadMetadata.download_complete (listings i) = .notComplete) :
    download_metadata fileIdsKeys realToGuessedKeys requested listings fuel =
      (metaRemoteEvents requested ++ quitEvents ++ [Ev.raiseTimeout],
        some MetaErr.timeoutException) ∧
      Ev.unzipMetadataStep ∉ metaRemoteEvents requested ++ quitEvents ++
        [Ev.raiseTimeout] := by
  have hfind : requested.find?
      (fun f => !((fileIdsKeys ++ realToGuessedKeys).contains f)) = none := by
    rw [List.find?_eq_none]
    intro x hx
    simp [hsup x hx]
  constructor
  · simp only [download_metadata, hfind,
      waitUntil_timedOut_of_never _ _ hnever fuel 0]
  · simp [metaRemoteEvents, quitEvents]

/-- Witness for the C5 theorem on a stream of permanently empty listings. -/
theorem metadata_timeout_teardown_witness :
    (∀ f ∈ ["a.csv"], f ∈ ["a.csv"] ++ ([] : List String)) ∧
      (∀ i : Nat, DownloadMetadata.download_complete
        ((fun _ => ([] : List String)) i) = .notComplete) ∧
      download_metadata ["a.csv"] [] ["a.csv"] (fun _ => []) 2 =
        (metaRemoteEvents ["a.csv"] ++ quitEvents ++ [Ev.raiseTimeout],
          some MetaErr.timeoutException) :=
  ⟨by decide, fun i => rfl,
    (metadata_timeout_teardown_before_raise ["a.csv"] [] ["a.csv"]
      (fun _ => []) 2 (by decide) (fun i => rfl)).1⟩

/-- C8: requesting a file name that is neither a checkbox-id key nor a real
downloaded-file name makes `download_metadata` raise the unsupported-name
exception with an empty event trace — before any remote interaction
(navigation, login, click or download) — and that error is a different
value from the download-timeout error. -/
theorem unsupported_name_raises_before_remote
    (fileIdsKeys realToGuessedKeys requested : List String)
    (listings : Nat → List String) (fuel : Nat) (f : String)
    (hf : f ∈ requested) (hns : f ∉ fileIdsKeys ++ realToGuessedKeys) :
    (∃ g, g ∉ fileIdsKeys ++ realToGuessedKeys ∧
      download_metadata fileIdsKeys realToGuessedKeys requested listings fuel =
        ([], some (MetaErr.unsupportedFileName g))) ∧
      (∀ s, MetaErr.unsupportedFileName s ≠ MetaErr.timeoutException) := by
  have hsome : (requested.find?
      (fun f => !((fileIdsKeys ++ realToGuessedKeys).contains f))).isSome := by
    rw [List.find?_isSome]
    exact ⟨f, hf, by simp [hns]⟩
  obtain ⟨g, hg⟩ := Option.isSome_iff_exists.mp hsome
  have hpg := List.find?_some hg
  refine ⟨⟨g, by simpa using hpg, ?_⟩, by intro s h; cases h⟩
  simp only [download_metadata, hg]

/-- Witness for the C8 theorem at a concrete unsupported request. -/
theorem unsupported_name_raises_witness :
    "nope" ∈ ["nope"] ∧ "nope" ∉ ["a.csv"] ++ ([] : List String) ∧
      ((∃ g, g ∉ ["a.csv"] ++ ([] : List String) ∧
        download_metadata ["a.csv"] [] ["nope"] (fun _ => []) 2 =
          ([], some (MetaErr.unsupportedFileName g))) ∧
        (∀ s, MetaErr.unsupportedFileName s ≠ MetaErr.timeoutException)) :=
  ⟨by decide, by decide,
    unsupported_name_raises_before_remote ["a.csv"] [] ["nope"] (fun _ => [])
      2 "nope" (by decide) (by decide)⟩

/-- C10: with an empty list of subject ids (and the default type
`archived`), `download_imaging_data` returns immediately: the event trace
is empty (no login, navigation or click), the temporary and destination
directory listings are unchanged, and no error is raised. -/
theorem empty_subject_ids_noop (zipContents : String → List String)
    (tempdir dest : List String) (listings : Nat → List String) (fuel : Nat) :
    download_imaging_data zipContents "archived" [] tempdir dest listings fuel =
      ([], (tempdir, dest), none) := rfl

/-- C6: `unzip_file` routes a finished file: a `.zip` archive has its full
member list extracted into the (initially empty) destination, which then
contains exactly the members, and the first two member names are reported;
any other file is moved into the destination preserving its name, so the
destination contains exactly that file, the source listing no longer
contains it, and no other source entry is affected. -/
theorem unzip_file_routes_files (zipContents : String → List String)
    (filename : String) (tempdir : List String) :
    (endsWithStr filename ".zip" = true →
      unzip_file zipContents filename tempdir [] =
        ((tempdir, zipContents filename), (zipContents filename).take 2))
    ∧ (endsWithStr filename ".zip" = false → filename ∈ tempdir →
        tempdir.Nodup →
        (unzip_file zipContents filename tempdir []).1.2 = [filename]
        ∧ filename ∉ (unzip_file zipContents filename tempdir []).1.1
        ∧ (∀ g, g ≠ filename →
            (g ∈ (unzip_file zipContents filename tempdir []).1.1 ↔ g ∈ tempdir))
        ∧ (unzip_file zipContents filename tempdir []).2 = [filename]) := by
  constructor
  · intro hz
    simp [unzip_file, hz]
  · intro hz _hmem hnd
    refine ⟨?_, ?_, ?_, ?_⟩
    · simp [unzip_file, hz]
    · simp only [unzip_file, hz, Bool.false_eq_true, if_false]
      intro hc
      exact absurd (hnd.mem_erase_iff.mp hc).1 (by simp)
    · intro g hgne
      simp only [unzip_file, hz, Bool.false_eq_true, if_false]
      rw [hnd.mem_erase_iff]
      simp [hgne]
    · simp [unzip_file, hz]

/-- Witness for the C6 theorem: an archive with two members, and a plain
csv file. -/
theorem unzip_file_routes_files_witness :
    (endsWithStr "m.zip" ".zip" = true ∧
      unzip_file (fun _ => ["a.csv", "b.xml"]) "m.zip" ["m.zip"] [] =
        ((["m.zip"], ["a.csv", "b.xml"]), ["a.csv", "b.xml"]))
    ∧ (endsWithStr "x.csv" ".zip" = false ∧ "x.csv" ∈ ["x.csv"] ∧
      ([("x.csv" : String)]).Nodup ∧
      (unzip_file (fun _ => []) "x.csv" ["x.csv"] []).1.2 = ["x.csv"] ∧
      "x.csv" ∉ (unzip_file (fun _ => []) "x.csv" ["x.csv"] []).1.1) :=
  ⟨⟨by decide,
      by
        have h := (unzip_file_routes_files (fun _ => ["a.csv", "b.xml"])
          "m.zip" ["m.zip"]).1 (by decide)
        simpa using h⟩,
    by decide, by decide, by decide,
    ((unzip_file_routes_files (fun _ => []) "x.csv" ["x.csv"]).2 (by decide)
      (by decide) (by decide)).1,
    ((unzip_file_routes_files (fun _ => []) "x.csv" ["x.csv"]).2 (by decide)
      (by decide) (by decide)).2.1⟩

theorem dictSet_not_mem {d : List (String × String)} {k v : String}
    (h : ∀ q ∈ d, q.1 ≠ k) : dictSet d k v = d ++ [(k, v)] := by
  induction d with
  | nil => rfl
  | cons p d ih =>
    obtain ⟨k', v'⟩ := p
    have hne : k' ≠ k := h (k', v') (by simp)
    simp only [dictSet, if_neg hne, List.cons_append, List.cons.injEq, true_and]
    exact ih (fun q hq => h q (by simp [hq]))

theorem foldl_dictSet_swap (m : List (String × String)) :
    ∀ acc, (∀ p ∈ m, ∀ q ∈ acc, q.1 ≠ p.2) → (m.map Prod.snd).Nodup →
      m.foldl (fun acc p => dictSet acc p.2 p.1) acc =
        acc ++ m.map (fun p => (p.2, p.1)) := by
  induction m with
  | nil => intro acc _ _; simp
  | cons p m ih =>
    intro acc hdisj hnd
    have hnd2 : (p.2 :: m.map Prod.snd).Nodup := by simpa using hnd
    simp only [List.foldl_cons]
    rw [dictSet_not_mem (fun q hq => hdisj p (by simp) q hq)]
    rw [ih (acc ++ [(p.2, p.1)]) ?_ (List.nodup_cons.mp hnd2).2]
    · simp
    · intro r hr q hq
      rcases List.mem_append.mp hq with hq | hq
      · exact hdisj r (by simp [hr]) q hq
      · rcases List.mem_singleton.mp hq with rfl
        intro hc
        have hcm : r.2 ∈ m.map Prod.snd := List.mem_map_of_mem _ hr
        rw [← hc] at hcm
        exact (List.nodup_cons.mp hnd2).1 hcm

theorem dictInvert_eq_swap (m : List (String × String))
    (hv : (m.map Prod.snd).Nodup) :
    dictInvert m = m.map (fun p => (p.2, p.1)) := by
  have h := foldl_dictSet_swap m [] (by intro p _ q hq; cases hq) hv
  simpa [dictInvert] using h

theorem dictGet_mem : ∀ (d : List (String × String)) (k v : String),
    dictGet d k = some v → (k, v) ∈ d := by
  intro d
  induction d with
  | nil => intro k v h; cases h
  | cons p d ih =>
    intro k v h
    obtain ⟨k', v'⟩ := p
    simp only [dictGet] at h
    by_cases hk : k' = k
    · rw [if_pos hk] at h
      injection h with h
      subst hk
      subst h
      exact List.mem_cons_self _ _
    · rw [if_neg hk] at h
      exact List.mem_cons_of_mem _ (ih k v h)

theorem dictGet_of_mem : ∀ (d : List (String × String)) (k v : String),
    (d.map Prod.fst).Nodup → (k, v) ∈ d → dictGet d k = some v := by
  intro d
  induction d with
  | nil => intro k v _ h; cases h
  | cons p d ih =>
    intro k v hnd hmem
    obtain ⟨k', v'⟩ := p
    have hnd2 : (k' :: d.map Prod.fst).Nodup := by simpa using hnd
    rcases List.mem_cons.mp hmem with heq | hmem2
    · injection heq with h1 h2
      subst h1
      subst h2
      simp [dictGet]
    · have hne : k' ≠ k := by
        intro hc
        have hcm : k ∈ d.map Prod.fst := List.mem_map_of_mem _ hmem2
        rw [← hc] at hcm
        exact (List.nodup_cons.mp hnd2).1 hcm
      simp only [dictGet, if_neg hne]
      exact ih k v (List.nodup_cons.mp hnd2).2 hmem2

/-- C9: when the values of `guessed_to_real` are pairwise distinct (and its
keys are keys of a dict, hence distinct), the comprehension building
`real_to_guessed` yields the inverse mapping: following a key of
`guessed_to_real` through both dicts returns that key, and symmetrically
for keys of `real_to_guessed`. -/
theorem real_to_guessed_inverse (m : List (String × String))
    (hk : (m.map Prod.fst).Nodup) (hv : (m.map Prod.snd).Nodup) :
    (∀ g v, dictGet m g = some v → dictGet (dictInvert m) v = some g) ∧
      (∀ v g, dictGet (dictInvert m) v = some g → dictGet m g = some v) := by
  have hswap := dictInvert_eq_swap m hv
  have hkeys : ((m.map fun p => (p.2, p.1)).map Prod.fst).Nodup := by
    simpa [List.map_map, Function.comp] using hv
  constructor
  · intro g v h
    have hmem : (v, g) ∈ m.map fun p => (p.2, p.1) :=
      List.mem_map.mpr ⟨(g, v), dictGet_mem m g v h, rfl⟩
    rw [hswap]
    exact dictGet_of_mem _ v g hkeys hmem
  · intro v g h
    rw [hswap] at h
    obtain ⟨⟨g', v'⟩, hm, heq⟩ := List.mem_map.mp (dictGet_mem _ v g h)
    simp only [Prod.mk.injEq] at heq
    obtain ⟨rfl, rfl⟩ := heq
    exact dictGet_of_mem m _ _ hk hm

/-- Witness for the C9 theorem at a concrete two-entry dict. -/
theorem real_to_guessed_inverse_witness :
    (([("ga", "ra"), ("gb", "rb")].map Prod.fst).Nodup ∧
      ([("ga", "ra"), ("gb", "rb")].map Prod.snd).Nodup) ∧
      dictGet (dictInvert [("ga", "ra"), ("gb", "rb")]) "ra" = some "ga" :=
  ⟨⟨by decide, by decide⟩,
    (real_to_guessed_inverse [("ga", "ra"), ("gb", "rb")] (by decide)
      (by decide)).1 "ga" "ra" (by decide)⟩

theorem dictAppend_fresh {R : Type} [DecidableEq R] {d : List (R × List ℚ)}
    {key : R} {v : ℚ} (h : ∀ q ∈ d, q.1 ≠ key) :
    dictAppend key v d = d ++ [(key, [v])] := by
  induction d with
  | nil => rfl
  | cons p d ih =>
    obtain ⟨k, vs⟩ := p
    have hne : k ≠ key := h (k, vs) (by simp)
    simp only [dictAppend, if_neg hne, List.cons_append, List.cons.injEq,
      true_and]
    exact ih (fun q hq => h q (by simp [hq]))

theorem dictAppend_found {R : Type} [DecidableEq R] (d₁ d₂ : List (R × List ℚ))
    (key : R) (vs : List ℚ) (v : ℚ) (h : ∀ p ∈ d₁, p.1 ≠ key) :
    dictAppend key v (d₁ ++ (key, vs) :: d₂) = d₁ ++ (key, vs ++ [v]) :: d₂ := by
  induction d₁ with
  | nil => simp [dictAppend]
  | cons p d₁ ih =>
    obtain ⟨k, ws⟩ := p
    have hne : k ≠ key := h (k, ws) (by simp)
    simp only [List.cons_append, dictAppend, if_neg hne, List.cons.injEq,
      true_and]
    exact ih (fun q hq => h q (by simp [hq]))

theorem innerFold_fresh {R : Type} [DecidableEq R] (f : R → ℚ) :
    ∀ (rest : List R) (d : List (R × List ℚ)),
      rest.Nodup → (∀ r ∈ rest, ∀ q ∈ d, q.1 ≠ r) →
      rest.foldl (fun d r => dictAppend r (f r) d) d =
        d ++ rest.map (fun r => (r, [f r])) := by
  intro rest
  induction rest with
  | nil => intro d _ _; simp
  | cons r rest ih =>
    intro d hnd hdisj
    simp only [List.foldl_cons]
    rw [dictAppend_fresh (fun q hq => hdisj r (by simp) q hq)]
    rw [ih (d ++ [(r, [f r])]) (List.nodup_cons.mp hnd).2 ?_]
    · simp
    · intro s hs q hq
      rcases List.mem_append.mp hq with hq | hq
      · exact hdisj s (by simp [hs]) q hq
      · rcases List.mem_singleton.mp hq with rfl
        intro hc
        have hc2 : r = s := hc
        exact (List.nodup_cons.mp hnd).1 (by rw [hc2]; exact hs)

theorem innerFold_update {R : Type} [DecidableEq R] (f : R → ℚ)
    (vs : R → List ℚ) :
    ∀ (rest : List R) (d : List (R × List ℚ)),
      rest.Nodup → (∀ r ∈ rest, ∀ q ∈ d, q.1 ≠ r) →
      rest.foldl (fun d r => dictAppend r (f r) d)
          (d ++ rest.map (fun r => (r, vs r))) =
        d ++ rest.map (fun r => (r, vs r ++ [f r])) := by
  intro rest
  induction rest with
  | nil => intro d _ _; simp
  | cons r rest ih =>
    intro d hnd hdisj
    simp only [List.map_cons, List.foldl_cons]
    rw [dictAppend_found d _ r (vs r) (f r) (fun q hq => hdisj r (by simp) q hq)]
    have hsplit : d ++ (r, vs r ++ [f r]) :: rest.map (fun s => (s, vs s)) =
        (d ++ [(r, vs r ++ [f r])]) ++ rest.map (fun s => (s, vs s)) := by
      simp
    rw [hsplit]
    rw [ih (d ++ [(r, vs r ++ [f r])]) (List.nodup_cons.mp hnd).2 ?_]
    · simp
    · intro s hs q hq
      rcases List.mem_append.mp hq with hq | hq
      · exact hdisj s (by simp [hs]) q hq
      · rcases List.mem_singleton.mp hq with rfl
        intro hc
        have hc2 : r = s := hc
        exact (List.nodup_cons.mp hnd).1 (by rw [hc2]; exact hs)

theorem outerFold_eq {A R : Type} [DecidableEq R] (real : List R)
    (sim : A → R → ℚ) (hnd : real.Nodup) :
    ∀ (algos : List A) (vs : R → List ℚ),
      algos.foldl
          (fun d a => real.foldl (fun d r => dictAppend r (sim a r) d) d)
          (real.map (fun r => (r, vs r))) =
        real.map (fun r => (r, vs r ++ algos.map (fun a => sim a r))) := by
  intro algos
  induction algos with
  | nil => intro vs; simp
  | cons a algos ih =>
    intro vs
    simp only [List.foldl_cons]
    have h1 := innerFold_update (fun r => sim a r) vs real [] hnd
      (by intro r _ q hq; cases hq)
    simp only [List.nil_append] at h1
    rw [h1, ih (fun r => vs r ++ [sim a r])]
    congr 1
    funext r
    simp

theorem scores_local_eq {A R : Type} [DecidableEq R] (a : A) (algos : List A)
    (real : List R) (sim : A → R → ℚ) (hnd : real.Nodup) :
    scores_local (a :: algos) real sim =
      real.map (fun r => (r, (a :: algos).map (fun b => sim b r))) := by
  simp only [scores_local, List.foldl_cons]
  have h1 := innerFold_fresh (fun r => sim a r) real [] hnd
    (by intro r _ q hq; cases hq)
  simp only [List.nil_append] at h1
  rw [h1, outerFold_eq real sim hnd algos (fun r => [sim a r])]
  simp

theorem sortDesc_head_first_max {P : Type} (key : P → ℚ) :
    ∀ (l : List P), l ≠ [] →
      ∃ pre x post, l = pre ++ x :: post ∧
        (sortDesc key l).head? = some x ∧
        (∀ y ∈ pre, key y < key x) ∧
        (∀ y ∈ l, key y ≤ key x) := by
  intro l
  induction l with
  | nil => intro h; cases h rfl
  | cons a l ih =>
    intro _
    cases l with
    | nil => exact ⟨[], a, [], rfl, rfl, by simp, by simp⟩
    | cons b l2 =>
      obtain ⟨pre, m, post, hdec, hhead, hpre, hall⟩ := ih (by simp)
      obtain ⟨s2, hs⟩ : ∃ s2, sortDesc key (b :: l2) = m :: s2 := by
        cases hsd : sortDesc key (b :: l2) with
        | nil => rw [hsd] at hhead; cases hhead
        | cons c cs =>
          rw [hsd] at hhead
          injection hhead with h
          exact ⟨cs, by rw [h]⟩
      have hunf : sortDesc key (a :: b :: l2) =
          insertDesc key a (sortDesc key (b :: l2)) := rfl
      rcases le_or_lt (key m) (key a) with hcmp | hcmp
      · refine ⟨[], a, b :: l2, rfl, ?_, by simp, ?_⟩
        · rw [hunf, hs]
          simp [insertDesc, hcmp]
        · intro y hy
          rcases List.mem_cons.mp hy with rfl | hy2
          · exact le_refl _
          · exact le_trans (hall y hy2) hcmp
      · refine ⟨a :: pre, m, post, by rw [hdec]; rfl, ?_, ?_, ?_⟩
        · rw [hunf, hs]
          simp [insertDesc, not_le.mpr hcmp]
        · intro y hy
          rcases List.mem_cons.mp hy with rfl | hy2
          · exact hcmp
          · exact hpre y hy2
        · intro y hy
          rcases List.mem_cons.mp hy with rfl | hy2
          · exact le_of_lt hcmp
          · exact hall y hy2

/-- C7: for any family of similarity measures (modeled as rational-valued
scores), any duplicate-free non-empty set of real names and any guessed
names, `find_matching` maps each guessed name to a real name whose
similarity scores summed across all measures are highest, and among
candidates tied at the highest aggregate score it selects the one seen
first in iteration order (every earlier candidate scores strictly
lower). -/
theorem find_matching_selects_first_max {A R G : Type} [DecidableEq R]
    (algorithms : List A) (real : List R) (guess : List G)
    (sim : A → R → G → ℚ) (hnd : real.Nodup) (hr : real ≠ [])
    (ha : algorithms ≠ []) (g : G) (hg : g ∈ guess) :
    ∃ r pre post,
      (g, some r) ∈ find_matching algorithms real guess sim ∧
      real = pre ++ r :: post ∧
      (∀ x ∈ pre, aggregate_score algorithms (fun a s => sim a s g) x <
        aggregate_score algorithms (fun a s => sim a s g) r) ∧
      (∀ x ∈ real, aggregate_score algorithms (fun a s => sim a s g) x ≤
        aggregate_score algorithms (fun a s => sim a s g) r) := by
  obtain ⟨a, algos, rfl⟩ := List.exists_cons_of_ne_nil ha
  have hsl := scores_local_eq a algos real (fun b s => sim b s g) hnd
  have hmne : real.map
      (fun r => (r, (a :: algos).map (fun b => sim b r g))) ≠ [] := by
    intro hc
    exact hr (List.map_eq_nil_iff.mp hc)
  obtain ⟨pre1, x, post1, hdec, hhead, hpre1, hall1⟩ :=
    sortDesc_head_first_max (fun p => p.2.sum) _ hmne
  rw [List.map_eq_append_iff] at hdec
  obtain ⟨s1, u, hreal, hs1, hu⟩ := hdec
  rw [List.map_eq_cons_iff] at hu
  obtain ⟨r, t, hu2, hx, ht⟩ := hu
  have hone : find_matching_one (a :: algos) real (fun b s => sim b s g) =
      some r := by
    simp only [find_matching_one, hsl, hhead, Option.map_some']
    rw [← hx]
  refine ⟨r, s1, t, ?_, ?_, ?_, ?_⟩
  · have : (g, find_matching_one (a :: algos) real (fun b s => sim b s g)) ∈
        find_matching (a :: algos) real guess sim :=
      List.mem_map.mpr ⟨g, hg, rfl⟩
    rw [hone] at this
    exact this
  · rw [hreal, hu2]
  · intro y hy
    have hmem : (y, (a :: algos).map (fun b => sim b y g)) ∈ pre1 := by
      rw [← hs1]
      exact List.mem_map.mpr ⟨y, hy, rfl⟩
    have := hpre1 _ hmem
    rw [← hx] at this
    exact this
  · intro y hy
    have hmem : (y, (a :: algos).map (fun b => sim b y g)) ∈
        real.map (fun r => (r, (a :: algos).map (fun b => sim b r g))) :=
      List.mem_map.mpr ⟨y, hy, rfl⟩
    have := hall1 _ hmem
    rw [← hx] at this
    exact this

/-- Witness for the C7 theorem on the concrete scenario of the spec:
one measure scoring the real name Demographics.csv highest for the guessed
name Demographics. -/
theorem find_matching_selects_first_max_witness :
    (["Demographics.csv", "Age_at_visit.csv"].Nodup ∧
      ["Demographics.csv", "Age_at_visit.csv"] ≠ ([] : List String) ∧
      ([0] : List Nat) ≠ [] ∧ "Demographics" ∈ ["Demographics"]) ∧
      (∃ r pre post,
        (("Demographics" : String), some r) ∈
          find_matching [0] ["Demographics.csv", "Age_at_visit.csv"]
            ["Demographics"]
            (fun _ s _ => if s = "Demographics.csv" then (1 : ℚ) else 0) ∧
        ["Demographics.csv", "Age_at_visit.csv"] = pre ++ r :: post ∧
        (∀ x ∈ pre, aggregate_score [0]
            (fun a s => (fun _ s _ => if s = "Demographics.csv" then (1 : ℚ) else 0)
              a s "Demographics") x <
          aggregate_score [0]
            (fun a s => (fun _ s _ => if s = "Demographics.csv" then (1 : ℚ) else 0)
              a s "Demographics") r) ∧
        (∀ x ∈ ["Demographics.csv", "Age_at_visit.csv"], aggregate_score [0]
            (fun a s => (fun _ s _ => if s = "Demographics.csv" then (1 : ℚ) else 0)
              a s "Demographics") x ≤
          aggregate_score [0]
            (fun a s => (fun _ s _ => if s = "Demographics.csv" then (1 : ℚ) else 0)
              a s "Demographics") r)) :=
  ⟨⟨by decide, by decide, by decide, by decide⟩,
    find_matching_selects_first_max [0] ["Demographics.csv", "Age_at_visit.csv"]
      ["Demographics"]
      (fun _ s _ => if s = "Demographics.csv" then (1 : ℚ) else 0)
      (by decide) (by decide) (by decide) "Demographics" (by decide)⟩
